import Mathlib

/-!
Verification of the portfolio-holdings reconstruction in
`jinfund/portfolio/holdings.py` (class `Portfolio`).

Dates are modelled as natural numbers, quantities/prices/split factors as
rationals, pandas `NaN` as `Option.none`.  A pandas `Series` indexed by date
is an association list `List (Nat × Option ℚ)`; a frame column that the code
has already purged of `NaN` is `List (Nat × ℚ)`.  Each pandas call used by the
source is embedded as its own definition, named after the operation it models.
-/

namespace JinFund

/-- Association-list lookup by date: the model of `series.loc[d]` / of index
alignment onto a sparse series (first matching entry wins; all series built
here have distinct dates). -/
def lookupA {α : Type} (d : Nat) : List (Nat × α) → Option α
  | [] => none
  | p :: rest => if p.1 = d then some p.2 else lookupA d rest

/-- Sorted union of two date indexes: the index produced by
`pd.merge_ordered` (outer join on `Date`) of two date-sorted frames. -/
def unionSorted : List Nat → List Nat → List Nat
  | [], ys => ys
  | x :: xs, [] => x :: xs
  | x :: xs, y :: ys =>
    if x < y then x :: unionSorted xs (y :: ys)
    else if y < x then y :: unionSorted (x :: xs) ys
    else x :: unionSorted xs ys
termination_by a b => a.length + b.length

/-- `pd.merge_ordered(vol_df, df_base_dates, on='Date')` (line 65): align the
sparse volume series onto the union of its dates with the dense date index;
dates with no trade get `NaN`. -/
def alignIdx (vol : List (Nat × ℚ)) (dense : List Nat) : List (Nat × Option ℚ) :=
  (unionSorted (vol.map Prod.fst) dense).map (fun d => (d, lookupA d vol))

/-- `Series.cumsum()` (line 66): running sum that skips `NaN` slots
(pandas `skipna` semantics: a `NaN` input stays `NaN` and does not reset or
advance the accumulator). -/
def cumsumSkipna (acc : ℚ) : List (Nat × Option ℚ) → List (Nat × Option ℚ)
  | [] => []
  | (d, none) :: rest => (d, none) :: cumsumSkipna acc rest
  | (d, some v) :: rest => (d, some (acc + v)) :: cumsumSkipna (acc + v) rest

/-- `Series.ffill()` (line 66) / `fillna(method='ffill')` (line 114):
forward-fill `NaN` slots with the last defined value. -/
def ffill (last : Option ℚ) : List (Nat × Option ℚ) → List (Nat × Option ℚ)
  | [] => []
  | (d, none) :: rest => (d, last) :: ffill last rest
  | (d, some v) :: rest => (d, some v) :: ffill (some v) rest

/-- `ticker_df[ticker_df['Volume'].isna() == False]` (line 67): drop every row
whose volume is `NaN`. -/
def dropna (s : List (Nat × Option ℚ)) : List (Nat × ℚ) :=
  s.filterMap (fun p => p.2.map (fun v => (p.1, v)))

/-- Lines 65–67 of `Portfolio.build`: the per-ticker pre-split daily quantity
series — align trade volumes onto the dense dates, cumulative-sum, forward
fill, and drop the (leading) `NaN` rows. -/
def rawQty (dense : List Nat) (vol : List (Nat × ℚ)) : List (Nat × ℚ) :=
  dropna (ffill none (cumsumSkipna 0 (alignIdx vol dense)))

/-- `df['Volume'].replace(0, np.nan)` (line 111): mask exact-zero holdings to
`NaN` before computing split effects. -/
def zeroMask (s : List (Nat × Option ℚ)) : List (Nat × Option ℚ) :=
  s.map (fun p => (p.1, match p.2 with
    | some v => if v = 0 then none else some v
    | none => none))

/-- `df_actions['Stock Splits'].replace(0, np.nan)` aligned onto a date
(line 108): the split factor announced on date `d`, with yfinance's
0-means-no-split rows turned into `NaN`. -/
def splitFactor (actions : List (Nat × ℚ)) (d : Nat) : Option ℚ :=
  match lookupA d actions with
  | some f => if f = 0 then none else some f
  | none => none

/-- `Series.cumprod()` (line 113): running product that skips `NaN` slots. -/
def cumprodSkipna (acc : ℚ) : List (Nat × Option ℚ) → List (Nat × Option ℚ)
  | [] => []
  | (d, none) :: rest => (d, none) :: cumprodSkipna acc rest
  | (d, some f) :: rest => (d, some (acc * f)) :: cumprodSkipna (acc * f) rest

/-- `.fillna(1)` (line 114): default any still-undefined cumulative split
factor to 1. -/
def fillna1 (s : List (Nat × Option ℚ)) : List (Nat × ℚ) :=
  s.map (fun p => (p.1, p.2.getD 1))

/-- `df['Volume'].first_valid_index()` (line 113): the date of the first
non-`NaN` entry, if any. -/
def fvIdx (s : List (Nat × Option ℚ)) : Option Nat :=
  (s.find? (fun p => p.2.isSome)).map Prod.fst

/-- `df['Volume'] *= stocksplit_cumulative` (line 118): index-aligned
multiplication; a date missing from the cumulative-factor series yields
`NaN`. -/
def mulAligned (df : List (Nat × Option ℚ)) (cp : List (Nat × ℚ)) :
    List (Nat × Option ℚ) :=
  df.map (fun p => (p.1, p.2.bind (fun v => (lookupA p.1 cp).map (fun c => v * c))))

/-- `np.ceil(df['Volume'])` (line 119): round every defined quantity up to the
next whole unit. -/
def ceilSeries (s : List (Nat × Option ℚ)) : List (Nat × Option ℚ) :=
  s.map (fun p => (p.1, p.2.map (fun v => ((⌈v⌉ : ℤ) : ℚ))))

/-- `df.loc[fvi:]` (line 113): restrict the frame's date index to the dates at
or after the first valid index; when there is no valid index (`df.loc[None:]`)
the whole index is kept. -/
def sliceFrom (fv? : Option Nat) (keys : List Nat) : List Nat :=
  match fv? with
  | some fv => keys.filter (fun d => decide (fv ≤ d))
  | none => keys

/-- `Portfolio.stocksplits` (lines 107–126), given the fetched corporate
actions: if any action row has a positive split factor, mask zero holdings,
build the cumulative split factor from the first valid (masked) quantity date
onward (`df.loc[fvi:]`, cumprod, ffill, fillna(1)), rescale the quantities and
round them up; otherwise return the frame unchanged. -/
def stocksplits (actions : List (Nat × ℚ)) (df : List (Nat × Option ℚ)) :
    List (Nat × Option ℚ) :=
  if actions.any (fun p => decide (0 < p.2)) then
    let masked := zeroMask df
    let slicedIdx := sliceFrom (fvIdx masked) (masked.map Prod.fst)
    let cp := fillna1 (ffill none (cumprodSkipna 1
      (slicedIdx.map (fun d => (d, splitFactor actions d)))))
    ceilSeries (mulAligned masked cp)
  else df

/-- Lines 99–104 wrapped around `stocksplits`: the `yf.Ticker(...).actions`
fetch either succeeds with an action table or raises `TypeError`; on failure
the frame is returned unmodified and a warning is printed (modelled as the
`Bool` component, `true` = warning emitted). -/
def stocksplitsChecked (fetch : Option (List (Nat × ℚ)))
    (df : List (Nat × Option ℚ)) : List (Nat × Option ℚ) × Bool :=
  match fetch with
  | none => (df, true)
  | some actions => (stocksplits actions df, false)

/-- `pd.merge_ordered(ticker_df, close[ticker], on='Date')` (line 73): outer
join of the adjusted quantity series with the close-price series on date.  A
date present on only one side gets `NaN` on the other. -/
def mergeClose (adj : List (Nat × Option ℚ)) (close : List (Nat × Option ℚ)) :
    List (Nat × Option ℚ × Option ℚ) :=
  (unionSorted (adj.map Prod.fst) (close.map Prod.fst)).map
    (fun d => (d, ((lookupA d adj).getD none, (lookupA d close).getD none)))

/-- Modelled from the spec: `Trades.by_ticker` lives in
`portfolio/transactions.py`, which is not part of the sources here; per the
spec it supplies the instrument's date-ordered net volumes, with same-date
signed volumes summed into one net volume per date (sum, not last-write). -/
def by_ticker (events : List (Nat × ℚ)) : List (Nat × ℚ) :=
  (events.map Prod.fst).dedup.map
    (fun d => (d, ((events.filter (fun p => p.1 = d)).map Prod.snd).sum))

/-- One row of the final portfolio table
(`(Date, Ticker): [Volume, Close, Value]`, lines 80–81). -/
structure HoldingRecord where
  date : Nat
  ticker : Nat
  volume : Option ℚ
  close : Option ℚ
  value : Option ℚ
deriving DecidableEq, Repr

/-- `x['Volume'] * x['Close']` (line 81) with `NaN` propagation. -/
def optMul (a b : Option ℚ) : Option ℚ :=
  a.bind (fun v => b.map (fun c => v * c))

/-- The `sort_index()` order on `(Date, Ticker)` (line 80). -/
def recLE (a b : Nat × Nat × Option ℚ × Option ℚ) : Prop :=
  a.1 < b.1 ∨ (a.1 = b.1 ∧ a.2.1 ≤ b.2.1)

instance : DecidableRel recLE := fun a b => by
  unfold recLE; infer_instance

/-- Lines 61–78 of `Portfolio.build` for one ticker: cumulative quantity from
trades, split adjustment, then the (outer) merge with close prices. -/
def buildTicker (dense : List Nat) (vol : List (Nat × ℚ))
    (fetch : Option (List (Nat × ℚ))) (close : List (Nat × Option ℚ)) :
    List (Nat × Option ℚ × Option ℚ) :=
  mergeClose
    (stocksplitsChecked fetch ((rawQty dense vol).map (fun p => (p.1, some p.2)))).1
    close

/-- `Portfolio.build` (lines 32–84): per ticker, the net trade volumes from
`Trades.by_ticker` feed `buildTicker`; the per-ticker frames are concatenated,
sorted by `(Date, Ticker)` and `Value = Volume * Close` is assigned.  The
external inputs (dense date list from `datehandler.date_list`, per-ticker
trade events, per-ticker corporate-action fetch outcome, per-ticker close
prices from `yf.download`) are parameters. -/
def buildAll (dense : List Nat) (tickers : List Nat)
    (events : Nat → List (Nat × ℚ)) (fetch : Nat → Option (List (Nat × ℚ)))
    (close : Nat → List (Nat × Option ℚ)) : List HoldingRecord :=
  let rows := (tickers.map (fun t =>
    (buildTicker dense (by_ticker (events t)) (fetch t) (close t)).map
      (fun r => (r.1, t, r.2)))).flatten
  (List.insertionSort recLE rows).map
    (fun r => { date := r.1, ticker := r.2.1, volume := r.2.2.1,
                close := r.2.2.2, value := optMul r.2.2.1 r.2.2.2 })

/-- The `HoldingRecord` that `Portfolio.build` emits for ticker `t` from a
merged per-ticker row (date, volume, close). -/
def mkRec (t : Nat) (r : Nat × Option ℚ × Option ℚ) : HoldingRecord :=
  { date := r.1, ticker := t, volume := r.2.1, close := r.2.2,
    value := optMul r.2.1 r.2.2 }

/-- Sum of the signed trade volumes with trade date at most `d`: the value the
spec asserts the cumulative quantity equals. -/
def sumLE (vol : List (Nat × ℚ)) (d : Nat) : ℚ :=
  ((vol.filter (fun p => decide (p.1 ≤ d))).map Prod.snd).sum

/-- The cumulative split factor that `stocksplits` applies at date `d`:
product of the (non-zero) factors announced on frame dates between the first
valid masked-quantity date and `d`, defaulting to 1. -/
def cumFactorAt (actions : List (Nat × ℚ)) (df : List (Nat × Option ℚ))
    (d : Nat) : ℚ :=
  match fvIdx (zeroMask df) with
  | some fv =>
    ((((df.map Prod.fst).filter (fun t => decide (fv ≤ t))).filter
      (fun t => decide (t ≤ d))).filterMap (splitFactor actions)).prod
  | none => 1

/-- The closed-form description of what `Portfolio.stocksplits` computes when
at least one positive split factor exists (from the spec's wording): zero and
undefined holdings become undefined; every other quantity is multiplied by the
cumulative split factor since the first valid date and rounded up. -/
def adjustSpec (actions : List (Nat × ℚ)) (df : List (Nat × Option ℚ)) :
    List (Nat × Option ℚ) :=
  df.map (fun p => (p.1, match p.2 with
    | some q => if q = 0 then none
        else some ((⌈q * cumFactorAt actions df p.1⌉ : ℤ) : ℚ)
    | none => none))

/-! ### Lemmas about the basic series operations -/

theorem lookupA_map_self {α : Type} (g : Nat → α) {idx : List Nat} {d : Nat}
    (h : d ∈ idx) : lookupA d (idx.map (fun x => (x, g x))) = some (g d) := by
  induction idx with
  | nil => cases h
  | cons e rest ih =>
    simp only [List.map_cons, lookupA]
    by_cases he : e = d
    · subst he; simp
    · rcases List.mem_cons.mp h with h | h
      · exact absurd h.symm he
      · simp [he, ih h]

theorem lookupA_map_of_not_mem {α : Type} (g : Nat → α) {idx : List Nat} {d : Nat}
    (h : d ∉ idx) : lookupA d (idx.map (fun x => (x, g x))) = none := by
  induction idx with
  | nil => rfl
  | cons e rest ih =>
    simp only [List.map_cons, lookupA]
    have he : e ≠ d := fun hc => h (hc ▸ List.mem_cons_self e rest)
    simp only [he, if_false]
    exact ih (fun hc => h (List.mem_cons_of_mem e hc))

theorem lookupA_mem {α : Type} {l : List (Nat × α)} {d : Nat} {x : α}
    (h : lookupA d l = some x) : (d, x) ∈ l := by
  induction l with
  | nil => cases h
  | cons p rest ih =>
    simp only [lookupA] at h
    by_cases hp : p.1 = d
    · simp only [hp, if_true, Option.some.injEq] at h
      subst hp; exact h ▸ List.mem_cons_self p rest
    · simp only [hp, if_false] at h
      exact List.mem_cons_of_mem p (ih h)

theorem lookupA_of_mem_nodup {α : Type} {l : List (Nat × α)} {d : Nat} {x : α}
    (hn : (l.map Prod.fst).Nodup) (h : (d, x) ∈ l) : lookupA d l = some x := by
  induction l with
  | nil => cases h
  | cons p rest ih =>
    simp only [List.map_cons, List.nodup_cons] at hn
    rcases List.mem_cons.mp h with h | h
    · subst h; simp [lookupA]
    · have hp : p.1 ≠ d := by
        intro hc
        exact hn.1 (hc ▸ (List.mem_map.mpr ⟨(d, x), h, rfl⟩))
      simp only [lookupA, hp, if_false]
      exact ih hn.2 h

theorem lookupA_cons_ne {α : Type} {p : Nat × α} {l : List (Nat × α)} {d : Nat}
    (h : p.1 ≠ d) : lookupA d (p :: l) = lookupA d l := by
  simp [lookupA, h]

theorem mem_unionSorted {a : Nat} : ∀ {xs ys : List Nat},
    a ∈ unionSorted xs ys ↔ a ∈ xs ∨ a ∈ ys := by
  intro xs ys
  induction xs, ys using unionSorted.induct with
  | case1 ys => simp [unionSorted]
  | case2 x xs => simp [unionSorted]
  | case3 x xs y ys h ih =>
    rw [unionSorted]; simp only [if_pos h]
    simp only [List.mem_cons, ih]
    tauto
  | case4 x xs y ys h h' ih =>
    rw [unionSorted]; simp only [if_neg h, if_pos h']
    simp only [List.mem_cons, ih]
    tauto
  | case5 x xs y ys h h' ih =>
    rw [unionSorted]; simp only [if_neg h, if_neg h']
    have hxy : x = y := le_antisymm (not_lt.mp h') (not_lt.mp h)
    subst hxy
    simp only [List.mem_cons, ih]
    tauto

theorem pairwise_unionSorted : ∀ {xs ys : List Nat},
    xs.Pairwise (· < ·) → ys.Pairwise (· < ·) →
    (unionSorted xs ys).Pairwise (· < ·) := by
  intro xs ys
  induction xs, ys using unionSorted.induct with
  | case1 ys => intro _ h; simpa [unionSorted] using h
  | case2 x xs => intro h _; simpa [unionSorted] using h
  | case3 x xs y ys h ih =>
    intro hx hy
    rw [unionSorted]; simp only [if_pos h]
    rw [List.pairwise_cons] at hx ⊢
    refine ⟨?_, ih hx.2 hy⟩
    intro b hb
    rcases mem_unionSorted.mp hb with hb | hb
    · exact hx.1 b hb
    · rcases List.mem_cons.mp hb with hb | hb
      · omega
      · exact h.trans ((List.pairwise_cons.mp hy).1 b hb)
  | case4 x xs y ys h h' ih =>
    intro hx hy
    rw [unionSorted]; simp only [if_neg h, if_pos h']
    rw [List.pairwise_cons] at hy ⊢
    refine ⟨?_, ih hx hy.2⟩
    intro b hb
    rcases mem_unionSorted.mp hb with hb | hb
    · rcases List.mem_cons.mp hb with hb | hb
      · omega
      · exact h'.trans ((List.pairwise_cons.mp hx).1 b hb)
    · exact hy.1 b hb
  | case5 x xs y ys h h' ih =>
    intro hx hy
    rw [unionSorted]; simp only [if_neg h, if_neg h']
    have hxy : x = y := le_antisymm (not_lt.mp h') (not_lt.mp h)
    subst hxy
    rw [List.pairwise_cons] at hx hy ⊢
    refine ⟨?_, ih hx.2 hy.2⟩
    intro b hb
    rcases mem_unionSorted.mp hb with hb | hb
    · exact hx.1 b hb
    · exact hy.1 b hb

theorem unionSorted_eq_right : ∀ {xs ys : List Nat},
    xs.Pairwise (· < ·) → ys.Pairwise (· < ·) → (∀ a ∈ xs, a ∈ ys) →
    unionSorted xs ys = ys := by
  intro xs ys
  induction xs, ys using unionSorted.induct with
  | case1 ys => intro _ _ _; rw [unionSorted]
  | case2 x xs =>
    intro _ _ hsub
    exact absurd (hsub x (List.mem_cons_self x xs)) (List.not_mem_nil x)
  | case3 x xs y ys h ih =>
    intro hx hy hsub
    exfalso
    rcases List.mem_cons.mp (hsub x (List.mem_cons_self x xs)) with hc | hc
    · omega
    · have := h.trans ((List.pairwise_cons.mp hy).1 x hc); omega
  | case4 x xs y ys h h' ih =>
    intro hx hy hsub
    rw [unionSorted]; simp only [if_neg h, if_pos h']
    congr 1
    refine ih hx (List.pairwise_cons.mp hy).2 ?_
    intro a ha
    have hay : y < a := by
      rcases List.mem_cons.mp ha with ha | ha
      · omega
      · exact h'.trans ((List.pairwise_cons.mp hx).1 a ha)
    rcases List.mem_cons.mp (hsub a ha) with hc | hc
    · omega
    · exact hc
  | case5 x xs y ys h h' ih =>
    intro hx hy hsub
    rw [unionSorted]; simp only [if_neg h, if_neg h']
    have hxy : x = y := le_antisymm (not_lt.mp h') (not_lt.mp h)
    subst hxy
    congr 1
    refine ih (List.pairwise_cons.mp hx).2 (List.pairwise_cons.mp hy).2 ?_
    intro a ha
    have hax : x < a := (List.pairwise_cons.mp hx).1 a ha
    rcases List.mem_cons.mp (hsub a (List.mem_cons_of_mem x ha)) with hc | hc
    · omega
    · exact hc

theorem sumLE_cons {p : Nat × ℚ} {vol : List (Nat × ℚ)} {d : Nat} :
    sumLE (p :: vol) d = if p.1 ≤ d then p.2 + sumLE vol d else sumLE vol d := by
  by_cases h : p.1 ≤ d <;> simp [sumLE, List.filter, h]

theorem sumLE_eq_zero {vol : List (Nat × ℚ)} {d : Nat}
    (h : ∀ p ∈ vol, d < p.1) : sumLE vol d = 0 := by
  induction vol with
  | nil => rfl
  | cons p rest ih =>
    rw [sumLE_cons, if_neg (not_le.mpr (h p (List.mem_cons_self p rest)))]
    exact ih (fun q hq => h q (List.mem_cons_of_mem p hq))

theorem fvIdx_le {s : List (Nat × Option ℚ)}
    (hs : (s.map Prod.fst).Pairwise (· < ·)) {fv : Nat}
    (hf : fvIdx s = some fv) :
    ∀ p ∈ s, p.2.isSome = true → fv ≤ p.1 := by
  induction s with
  | nil => cases hf
  | cons q rest ih =>
    by_cases hq : q.2.isSome = true
    · have hfq : fvIdx (q :: rest) = some q.1 := by
        unfold fvIdx; rw [@List.find?_cons_of_pos _ (fun r => r.2.isSome) q rest hq]; rfl
      rw [hfq] at hf
      have hfv : fv = q.1 := (Option.some.injEq _ _).mp hf.symm
      intro p hp _
      rcases List.mem_cons.mp hp with hp | hp
      · rw [hfv, hp]
      · have := (List.pairwise_cons.mp hs).1 p.1 (List.mem_map.mpr ⟨p, hp, rfl⟩)
        omega
    · have hfq : fvIdx (q :: rest) = fvIdx rest := by
        unfold fvIdx; rw [@List.find?_cons_of_neg _ (fun r => r.2.isSome) q rest hq]
      rw [hfq] at hf
      intro p hp hps
      rcases List.mem_cons.mp hp with hp | hp
      · rw [hp] at hps; exact absurd hps hq
      · exact ih (List.pairwise_cons.mp hs).2 hf p hp hps

theorem fvIdx_none {s : List (Nat × Option ℚ)} (hf : fvIdx s = none) :
    ∀ p ∈ s, p.2 = none := by
  induction s with
  | nil => intro p hp; cases hp
  | cons q rest ih =>
    by_cases hq : q.2.isSome = true
    · have hfq : fvIdx (q :: rest) = some q.1 := by
        unfold fvIdx; rw [@List.find?_cons_of_pos _ (fun r => r.2.isSome) q rest hq]; rfl
      rw [hfq] at hf; cases hf
    · have hfq : fvIdx (q :: rest) = fvIdx rest := by
        unfold fvIdx; rw [@List.find?_cons_of_neg _ (fun r => r.2.isSome) q rest hq]
      rw [hfq] at hf
      intro p hp
      rcases List.mem_cons.mp hp with hp | hp
      · rw [hp]; exact Option.not_isSome_iff_eq_none.mp hq
      · exact ih hf p hp

theorem lookupA_eq_none_iff {α : Type} {l : List (Nat × α)} {d : Nat} :
    lookupA d l = none ↔ ∀ p ∈ l, p.1 ≠ d := by
  induction l with
  | nil => simp [lookupA]
  | cons p rest ih =>
    by_cases hp : p.1 = d
    · simp [lookupA, hp]
    · simp only [lookupA, hp, if_false, ih, List.mem_cons]
      constructor
      · intro h q hq
        rcases hq with hq | hq
        · subst hq; exact hp
        · exact h q hq
      · intro h q hq; exact h q (Or.inr hq)

theorem dropna_cons_some {d : Nat} {v : ℚ} {s : List (Nat × Option ℚ)} :
    dropna ((d, some v) :: s) = (d, v) :: dropna s := rfl

theorem dropna_cons_none {d : Nat} {s : List (Nat × Option ℚ)} :
    dropna ((d, none) :: s) = dropna s := rfl

/-- Phase 2 of the cumulative-sum/forward-fill pipeline: once a first trade
has been absorbed (the forward-fill carry equals the running sum `acc`), every
remaining dense date gets the value `acc` plus the net volumes dated at most
that date. -/
theorem qty_phase2 : ∀ (idx : List Nat) (vol : List (Nat × ℚ)) (acc : ℚ),
    idx.Pairwise (· < ·) → (vol.map Prod.fst).Pairwise (· < ·) →
    (∀ p ∈ vol, p.1 ∈ idx) →
    dropna (ffill (some acc) (cumsumSkipna acc
        (idx.map (fun d => (d, lookupA d vol))))) =
      idx.map (fun d => (d, acc + sumLE vol d)) := by
  intro idx
  induction idx with
  | nil => intro vol acc _ _ _; rfl
  | cons d0 idx' ih =>
    intro vol acc hidx hvol hsub
    have hhead : ∀ b ∈ idx', d0 < b := (List.pairwise_cons.mp hidx).1
    have hidx' : idx'.Pairwise (· < ·) := (List.pairwise_cons.mp hidx).2
    rcases hlk : lookupA d0 vol with _ | v0
    · have hne : ∀ p ∈ vol, p.1 ≠ d0 := lookupA_eq_none_iff.mp hlk
      have hgt : ∀ p ∈ vol, d0 < p.1 := by
        intro p hp
        rcases List.mem_cons.mp (hsub p hp) with hc | hc
        · exact absurd hc (hne p hp)
        · exact hhead _ hc
      have hsub' : ∀ p ∈ vol, p.1 ∈ idx' := by
        intro p hp
        rcases List.mem_cons.mp (hsub p hp) with hc | hc
        · exact absurd hc (hne p hp)
        · exact hc
      simp only [List.map_cons, hlk, cumsumSkipna, ffill, dropna_cons_some]
      rw [ih vol acc hidx' hvol hsub']
      rw [sumLE_eq_zero hgt, add_zero]
    · have hd0 : d0 ∈ vol.map Prod.fst := by
        have := lookupA_mem hlk
        exact List.mem_map.mpr ⟨(d0, v0), this, rfl⟩
      rcases vol with _ | ⟨q, vol'⟩
      · cases hd0
      · have hq1 : q.1 = d0 := by
          rcases List.mem_cons.mp hd0 with hc | hc
          · exact hc.symm
          · exfalso
            rcases List.mem_map.mp hc with ⟨p, hp, hpd⟩
            have h1 : q.1 < p.1 :=
              (List.pairwise_cons.mp hvol).1 p.1 (List.mem_map.mpr ⟨p, hp, rfl⟩)
            have h2 : q.1 ∈ d0 :: idx' := hsub q (List.mem_cons_self q vol')
            rcases List.mem_cons.mp h2 with hc2 | hc2
            · omega
            · have := hhead _ hc2; omega
        have hv0 : v0 = q.2 := by
          rw [lookupA, if_pos hq1] at hlk
          exact ((Option.some.injEq _ _).mp hlk).symm
        have hkeys' : ∀ p ∈ vol', d0 < p.1 := by
          intro p hp
          have := (List.pairwise_cons.mp hvol).1 p.1 (List.mem_map.mpr ⟨p, hp, rfl⟩)
          omega
        have hsub' : ∀ p ∈ vol', p.1 ∈ idx' := by
          intro p hp
          rcases List.mem_cons.mp (hsub p (List.mem_cons_of_mem q hp)) with hc | hc
          · exact absurd hc (by have := hkeys' p hp; omega)
          · exact hc
        have hmapc : idx'.map (fun d => (d, lookupA d (q :: vol')))
            = idx'.map (fun d => (d, lookupA d vol')) := by
          refine List.map_congr_left ?_
          intro d hd
          rw [lookupA_cons_ne (by have := hhead d hd; omega)]
        simp only [List.map_cons, hlk, cumsumSkipna, ffill, dropna_cons_some, hmapc]
        rw [ih vol' (acc + v0) hidx' (List.pairwise_cons.mp hvol).2 hsub']
        congr 1
        · rw [sumLE_cons, if_pos (le_of_eq hq1), hv0, sumLE_eq_zero hkeys', add_zero]
        · refine List.map_congr_left ?_
          intro d hd
          rw [sumLE_cons, if_pos (by have := hhead d hd; omega), hv0, add_assoc]

/-- Phase 1 of the pipeline: starting with an empty forward-fill carry and a
zero running sum, the dense dates strictly before the first trade are dropped
and every later date carries the running sum of volumes dated at most that
date. -/
theorem qty_phase1 : ∀ (idx : List Nat) (vol : List (Nat × ℚ)),
    idx.Pairwise (· < ·) → (vol.map Prod.fst).Pairwise (· < ·) →
    (∀ p ∈ vol, p.1 ∈ idx) →
    dropna (ffill none (cumsumSkipna 0
        (idx.map (fun d => (d, lookupA d vol))))) =
      (idx.filter (fun d => vol.any (fun p => decide (p.1 ≤ d)))).map
        (fun d => (d, sumLE vol d)) := by
  intro idx
  induction idx with
  | nil => intro vol _ _ _; rfl
  | cons d0 idx' ih =>
    intro vol hidx hvol hsub
    have hhead : ∀ b ∈ idx', d0 < b := (List.pairwise_cons.mp hidx).1
    have hidx' : idx'.Pairwise (· < ·) := (List.pairwise_cons.mp hidx).2
    rcases hlk : lookupA d0 vol with _ | v0
    · have hne : ∀ p ∈ vol, p.1 ≠ d0 := lookupA_eq_none_iff.mp hlk
      have hgt : ∀ p ∈ vol, d0 < p.1 := by
        intro p hp
        rcases List.mem_cons.mp (hsub p hp) with hc | hc
        · exact absurd hc (hne p hp)
        · exact hhead _ hc
      have hsub' : ∀ p ∈ vol, p.1 ∈ idx' := by
        intro p hp
        rcases List.mem_cons.mp (hsub p hp) with hc | hc
        · exact absurd hc (hne p hp)
        · exact hc
      have hany : vol.any (fun p => decide (p.1 ≤ d0)) = false := by
        rw [List.any_eq_false]
        intro p hp
        simp only [decide_eq_true_eq]
        have := hgt p hp; omega
      simp only [List.map_cons, hlk, cumsumSkipna, ffill, dropna_cons_none,
        List.filter_cons, hany]
      exact ih vol hidx' hvol hsub'
    · have hd0 : d0 ∈ vol.map Prod.fst := by
        have := lookupA_mem hlk
        exact List.mem_map.mpr ⟨(d0, v0), this, rfl⟩
      rcases vol with _ | ⟨q, vol'⟩
      · cases hd0
      · have hq1 : q.1 = d0 := by
          rcases List.mem_cons.mp hd0 with hc | hc
          · exact hc.symm
          · exfalso
            rcases List.mem_map.mp hc with ⟨p, hp, hpd⟩
            have h1 : q.1 < p.1 :=
              (List.pairwise_cons.mp hvol).1 p.1 (List.mem_map.mpr ⟨p, hp, rfl⟩)
            have h2 : q.1 ∈ d0 :: idx' := hsub q (List.mem_cons_self q vol')
            rcases List.mem_cons.mp h2 with hc2 | hc2
            · omega
            · have := hhead _ hc2; omega
        have hv0 : v0 = q.2 := by
          rw [lookupA, if_pos hq1] at hlk
          exact ((Option.some.injEq _ _).mp hlk).symm
        have hkeys' : ∀ p ∈ vol', d0 < p.1 := by
          intro p hp
          have := (List.pairwise_cons.mp hvol).1 p.1 (List.mem_map.mpr ⟨p, hp, rfl⟩)
          omega
        have hsub' : ∀ p ∈ vol', p.1 ∈ idx' := by
          intro p hp
          rcases List.mem_cons.mp (hsub p (List.mem_cons_of_mem q hp)) with hc | hc
          · exact absurd hc (by have := hkeys' p hp; omega)
          · exact hc
        have hmapc : idx'.map (fun d => (d, lookupA d (q :: vol')))
            = idx'.map (fun d => (d, lookupA d vol')) := by
          refine List.map_congr_left ?_
          intro d hd
          rw [lookupA_cons_ne (by have := hhead d hd; omega)]
        have hany : (q :: vol').any (fun p => decide (p.1 ≤ d0)) = true := by
          rw [List.any_eq_true]
          exact ⟨q, List.mem_cons_self q vol', by simp [hq1]⟩
        have hfilter : idx'.filter
            (fun d => (q :: vol').any (fun p => decide (p.1 ≤ d))) = idx' := by
          rw [List.filter_eq_self]
          intro d hd
          rw [List.any_eq_true]
          exact ⟨q, List.mem_cons_self q vol',
            by simp only [decide_eq_true_eq]; have := hhead d hd; omega⟩
        simp only [List.map_cons, hlk, cumsumSkipna, ffill, dropna_cons_some, hmapc,
          List.filter_cons, hany]
        rw [qty_phase2 idx' vol' (0 + v0) hidx' (List.pairwise_cons.mp hvol).2 hsub',
          hfilter]
        congr 1
        · show (d0, 0 + v0) = (d0, sumLE (q :: vol') d0)
          rw [sumLE_cons, if_pos (le_of_eq hq1), hv0, sumLE_eq_zero hkeys', add_zero,
            zero_add]
        · refine List.map_congr_left ?_
          intro d hd
          show (d, 0 + v0 + sumLE vol' d) = (d, sumLE (q :: vol') d)
          rw [sumLE_cons, if_pos (by have := hhead d hd; omega), hv0, zero_add]

/-- The pre-split quantity series of `Portfolio.build` (lines 65–67) is
exactly: the dense dates from the first trade onward, each carrying the sum of
the net volumes dated at most that date. -/
theorem rawQty_eq (dense : List Nat) (vol : List (Nat × ℚ))
    (hd : dense.Pairwise (· < ·)) (hv : (vol.map Prod.fst).Pairwise (· < ·))
    (hsub : ∀ p ∈ vol, p.1 ∈ dense) :
    rawQty dense vol =
      (dense.filter (fun d => vol.any (fun p => decide (p.1 ≤ d)))).map
        (fun d => (d, sumLE vol d)) := by
  unfold rawQty alignIdx
  rw [unionSorted_eq_right hv hd
    (fun a ha => by rcases List.mem_map.mp ha with ⟨p, hp, hpd⟩; exact hpd ▸ hsub p hp)]
  exact qty_phase1 dense vol hd hv hsub

theorem fillna1_cons {p : Nat × Option ℚ} {s : List (Nat × Option ℚ)} :
    fillna1 (p :: s) = (p.1, p.2.getD 1) :: fillna1 s := rfl

theorem zeroMask_fst (s : List (Nat × Option ℚ)) :
    (zeroMask s).map Prod.fst = s.map Prod.fst := by
  simp [zeroMask, List.map_map]

/-- Phase 2 of the cumulative-split-factor pipeline: once a first factor has
been absorbed (the forward-fill carry equals the running product `acc`), the
factor at each later date is `acc` times the product of the factors announced
at index dates at most that date. -/
theorem cp_phase2 (actions : List (Nat × ℚ)) : ∀ (idx : List Nat) (acc : ℚ),
    idx.Pairwise (· < ·) →
    fillna1 (ffill (some acc) (cumprodSkipna acc
        (idx.map (fun d => (d, splitFactor actions d))))) =
      idx.map (fun d => (d, acc *
        ((idx.filter (fun t => decide (t ≤ d))).filterMap
          (splitFactor actions)).prod)) := by
  intro idx
  induction idx with
  | nil => intro acc _; rfl
  | cons d0 idx' ih =>
    intro acc hidx
    have hhead : ∀ b ∈ idx', d0 < b := (List.pairwise_cons.mp hidx).1
    have hidx' : idx'.Pairwise (· < ·) := (List.pairwise_cons.mp hidx).2
    have hnil : idx'.filter (fun t => decide (t ≤ d0)) = [] := by
      rw [List.filter_eq_nil_iff]
      intro a ha
      simp only [decide_eq_true_eq, not_le]
      exact hhead a ha
    rcases hsf : splitFactor actions d0 with _ | f
    · simp only [List.map_cons, hsf, cumprodSkipna, ffill, fillna1_cons,
        Option.getD_some]
      rw [ih acc hidx']
      congr 1
      · rw [List.filter_cons, if_pos (by simp), List.filterMap_cons_none hsf, hnil,
          List.filterMap_nil, List.prod_nil, mul_one]
      · refine List.map_congr_left ?_
        intro d hd
        rw [List.filter_cons, if_pos (by simp [le_of_lt (hhead d hd)]),
          List.filterMap_cons_none hsf]
    · simp only [List.map_cons, hsf, cumprodSkipna, ffill, fillna1_cons,
        Option.getD_some]
      rw [ih (acc * f) hidx']
      congr 1
      · rw [List.filter_cons, if_pos (by simp), List.filterMap_cons_some hsf, hnil,
          List.filterMap_nil, List.prod_cons, List.prod_nil, mul_one]
      · refine List.map_congr_left ?_
        intro d hd
        rw [List.filter_cons, if_pos (by simp [le_of_lt (hhead d hd)]),
          List.filterMap_cons_some hsf, List.prod_cons, mul_assoc]

/-- Phase 1 of the cumulative-split-factor pipeline, as run by
`Portfolio.stocksplits`: starting with an empty forward-fill carry and unit
running product, the factor at each date is the product of the factors
announced at index dates at most that date (1 before the first split). -/
theorem cp_phase1 (actions : List (Nat × ℚ)) : ∀ (idx : List Nat),
    idx.Pairwise (· < ·) →
    fillna1 (ffill none (cumprodSkipna 1
        (idx.map (fun d => (d, splitFactor actions d))))) =
      idx.map (fun d => (d,
        ((idx.filter (fun t => decide (t ≤ d))).filterMap
          (splitFactor actions)).prod)) := by
  intro idx
  induction idx with
  | nil => intro _; rfl
  | cons d0 idx' ih =>
    intro hidx
    have hhead : ∀ b ∈ idx', d0 < b := (List.pairwise_cons.mp hidx).1
    have hidx' : idx'.Pairwise (· < ·) := (List.pairwise_cons.mp hidx).2
    have hnil : idx'.filter (fun t => decide (t ≤ d0)) = [] := by
      rw [List.filter_eq_nil_iff]
      intro a ha
      simp only [decide_eq_true_eq, not_le]
      exact hhead a ha
    rcases hsf : splitFactor actions d0 with _ | f
    · simp only [List.map_cons, hsf, cumprodSkipna, ffill, fillna1_cons,
        Option.getD_none]
      rw [ih hidx']
      congr 1
      · rw [List.filter_cons, if_pos (by simp), List.filterMap_cons_none hsf, hnil,
          List.filterMap_nil, List.prod_nil]
      · refine List.map_congr_left ?_
        intro d hd
        rw [List.filter_cons, if_pos (by simp [le_of_lt (hhead d hd)]),
          List.filterMap_cons_none hsf]
    · simp only [List.map_cons, hsf, cumprodSkipna, ffill, fillna1_cons,
        Option.getD_some]
      rw [cp_phase2 actions idx' (1 * f) hidx']
      congr 1
      · rw [List.filter_cons, if_pos (by simp), List.filterMap_cons_some hsf, hnil,
          List.filterMap_nil, List.prod_cons, List.prod_nil, mul_one, one_mul]
      · refine List.map_congr_left ?_
        intro d hd
        rw [List.filter_cons, if_pos (by simp [le_of_lt (hhead d hd)]),
          List.filterMap_cons_some hsf, List.prod_cons, one_mul]

/-- Closed form of `Portfolio.stocksplits` when the fetched actions contain at
least one positive split factor: each date keeps its date; a `NaN` or zero
quantity becomes `NaN`; any other quantity is multiplied by the cumulative
split factor since the first valid date and rounded up to a whole unit. -/
theorem stocksplits_spec (actions : List (Nat × ℚ)) (df : List (Nat × Option ℚ))
    (hdf : (df.map Prod.fst).Pairwise (· < ·))
    (hpos : actions.any (fun p => decide (0 < p.2)) = true) :
    stocksplits actions df = adjustSpec actions df := by
  unfold stocksplits
  rw [hpos]
  simp only [if_true]
  rcases hfv : fvIdx (zeroMask df) with _ | fv
  · have hall := fvIdx_none hfv
    unfold adjustSpec ceilSeries mulAligned zeroMask
    simp only [List.map_map]
    refine List.map_congr_left ?_
    intro p hp
    simp only [Function.comp]
    have hmem : (p.1, (match p.2 with
        | some v => if v = 0 then none else some v
        | none => none : Option ℚ)) ∈ zeroMask df := by
      unfold zeroMask
      exact List.mem_map.mpr ⟨p, hp, rfl⟩
    have hnone := hall _ hmem
    simp only at hnone
    rcases p with ⟨d, _ | q⟩
    · simp
    · simp only at hnone ⊢
      by_cases hq : q = 0
      · simp [hq]
      · rw [if_neg hq] at hnone
        cases hnone
  · have hsli : sliceFrom (some fv) ((zeroMask df).map Prod.fst)
        = (df.map Prod.fst).filter (fun d => decide (fv ≤ d)) := by
      unfold sliceFrom
      rw [zeroMask_fst]
    rw [hsli]
    have hpw : ((df.map Prod.fst).filter (fun d => decide (fv ≤ d))).Pairwise
        (· < ·) := hdf.filter _
    rw [cp_phase1 actions _ hpw]
    unfold adjustSpec ceilSeries mulAligned zeroMask
    simp only [List.map_map]
    refine List.map_congr_left ?_
    intro p hp
    simp only [Function.comp]
    rcases p with ⟨d, _ | q⟩
    · simp
    · by_cases hq : q = 0
      · simp [hq]
      · simp only [hq, if_neg hq]
        have hdm : d ∈ (df.map Prod.fst).filter (fun x => decide (fv ≤ x)) := by
          rw [List.mem_filter]
          refine ⟨List.mem_map.mpr ⟨(d, some q), hp, rfl⟩, ?_⟩

          have hin : ((d, some q).1, (some q : Option ℚ)) ∈ zeroMask df := by
            unfold zeroMask
            refine List.mem_map.mpr ⟨(d, some q), hp, ?_⟩
            simp [hq]
          have := fvIdx_le (by rw [zeroMask_fst]; exact hdf) hfv _ hin (by rfl)
          simpa using this
        rw [lookupA_map_self _ hdm]
        unfold cumFactorAt
        rw [hfv]
        simp

/-- Characterisation of membership in the final portfolio table: a record is
in `buildAll` exactly when it is the assembled row of some listed ticker. -/
theorem mem_buildAll {dense : List Nat} {tickers : List Nat}
    {events : Nat → List (Nat × ℚ)} {fetch : Nat → Option (List (Nat × ℚ))}
    {close : Nat → List (Nat × Option ℚ)} {rec : HoldingRecord} :
    rec ∈ buildAll dense tickers events fetch close ↔
      ∃ t ∈ tickers, ∃ row ∈ buildTicker dense (by_ticker (events t)) (fetch t)
        (close t), rec = mkRec t row := by
  unfold buildAll
  rw [List.mem_map]
  constructor
  · rintro ⟨r, hr, hrec⟩
    have hr' := (List.perm_insertionSort recLE _).mem_iff.mp hr
    rw [List.mem_flatten] at hr'
    rcases hr' with ⟨l, hl, hrl⟩
    rw [List.mem_map] at hl
    rcases hl with ⟨t, ht, rfl⟩
    rw [List.mem_map] at hrl
    rcases hrl with ⟨row, hrow, rfl⟩
    exact ⟨t, ht, row, hrow, by rw [← hrec]; rfl⟩
  · rintro ⟨t, ht, row, hrow, rfl⟩
    refine ⟨(row.1, t, row.2), ?_, rfl⟩
    refine (List.perm_insertionSort recLE _).mem_iff.mpr ?_
    rw [List.mem_flatten]
    exact ⟨_, List.mem_map.mpr ⟨t, ht, rfl⟩, List.mem_map.mpr ⟨row, hrow, rfl⟩⟩

/-- Every date of the (adjusted) quantity series survives the close-price
merge, paired with exactly the provider's price entry for that date. -/
theorem mem_mergeClose_left {adj close : List (Nat × Option ℚ)} {d : Nat}
    {v : Option ℚ} (hn : (adj.map Prod.fst).Nodup) (h : (d, v) ∈ adj) :
    (d, (v, (lookupA d close).getD none)) ∈ mergeClose adj close := by
  unfold mergeClose
  refine List.mem_map.mpr ⟨d, ?_, ?_⟩
  · exact mem_unionSorted.mpr (Or.inl (List.mem_map.mpr ⟨(d, v), h, rfl⟩))
  · rw [lookupA_of_mem_nodup hn h]
    rfl

theorem by_ticker_fst (events : List (Nat × ℚ)) :
    (by_ticker events).map Prod.fst = (events.map Prod.fst).dedup := by
  unfold by_ticker
  rw [List.map_map]
  rw [show (Prod.fst ∘ fun d =>
    (d, ((events.filter (fun p => p.1 = d)).map Prod.snd).sum)) = fun d => d from rfl]
  exact List.map_id' _

theorem by_ticker_sorted (events : List (Nat × ℚ))
    (h : (events.map Prod.fst).Pairwise (· ≤ ·)) :
    ((by_ticker events).map Prod.fst).Pairwise (· < ·) := by
  rw [by_ticker_fst]
  have hle : ((events.map Prod.fst).dedup).Pairwise (· ≤ ·) :=
    List.Pairwise.sublist (List.dedup_sublist _) h
  have hne : ((events.map Prod.fst).dedup).Pairwise (· ≠ ·) :=
    List.nodup_dedup _
  exact (hle.and hne).imp (fun hx => lt_of_le_of_ne hx.1 hx.2)

theorem rawQty_fst (dense : List Nat) (vol : List (Nat × ℚ))
    (hd : dense.Pairwise (· < ·)) (hv : (vol.map Prod.fst).Pairwise (· < ·))
    (hsub : ∀ p ∈ vol, p.1 ∈ dense) :
    (rawQty dense vol).map Prod.fst =
      dense.filter (fun d => vol.any (fun p => decide (p.1 ≤ d))) := by
  rw [rawQty_eq dense vol hd hv hsub, List.map_map]
  rw [show (Prod.fst ∘ fun d => (d, sumLE vol d)) = fun d => d from rfl]
  exact List.map_id' _

/-- If the adjusted series carries a defined value at a date, the unadjusted
series carried a defined value at that date too (the split adjuster never
invents dates or values). -/
theorem adj_defined_sub (fetch : Option (List (Nat × ℚ)))
    (df : List (Nat × Option ℚ)) (hdf : (df.map Prod.fst).Pairwise (· < ·)) :
    ∀ d q, (d, some q) ∈ (stocksplitsChecked fetch df).1 →
      ∃ v, (d, some v) ∈ df := by
  intro d q h
  rcases fetch with _ | actions
  · exact ⟨q, h⟩
  · have hch : (stocksplitsChecked (some actions) df).1
        = stocksplits actions df := rfl
    rw [hch] at h
    rcases hb : actions.any (fun p => decide (0 < p.2)) with _ | _
    · have hid : stocksplits actions df = df := by
        unfold stocksplits; rw [hb]; simp
      rw [hid] at h
      exact ⟨q, h⟩
    · rw [stocksplits_spec actions df hdf hb] at h
      unfold adjustSpec at h
      rcases List.mem_map.mp h with ⟨p, hp, heq⟩
      rcases p with ⟨d', pv⟩
      have h1 := congrArg Prod.fst heq
      have h2 := congrArg Prod.snd heq
      rcases pv with _ | v
      · simp at h2
      · simp only [Prod.fst, Prod.snd] at h1 h2
        by_cases hv : v = 0
        · rw [if_pos hv] at h2
          cases h2
        · exact ⟨v, by rw [← h1]; exact hp⟩

/-! ### Claim theorems -/

/-- C1: for every instrument and every date `d` on which the
(pre-split-adjustment) daily quantity is defined, the quantity at `d` equals
the sum of the signed net trade volumes of all trade dates at most `d`
(so the series is flat between trade dates, carrying the forward-filled last
cumulative value); every dense date from the first trade onward carries such a
value; and on dense dates before the instrument's first trade the quantity is
absent (null), not zero. -/
theorem C1_cumulative_quantity (dense : List Nat) (vol : List (Nat × ℚ))
    (hd : dense.Pairwise (· < ·)) (hv : (vol.map Prod.fst).Pairwise (· < ·))
    (hsub : ∀ p ∈ vol, p.1 ∈ dense) :
    (∀ d q, (d, q) ∈ rawQty dense vol → q = sumLE vol d) ∧
    (∀ d, d ∈ dense → (∃ p ∈ vol, p.1 ≤ d) →
      (d, sumLE vol d) ∈ rawQty dense vol) ∧
    (∀ d, (∀ p ∈ vol, d < p.1) → lookupA d (rawQty dense vol) = none) := by
  have he := rawQty_eq dense vol hd hv hsub
  refine ⟨?_, ?_, ?_⟩
  · intro d q hq
    rw [he] at hq
    rcases List.mem_map.mp hq with ⟨d', _, hdq⟩
    have h1 : d' = d := congrArg Prod.fst hdq
    have h2 : sumLE vol d' = q := congrArg Prod.snd hdq
    rw [← h2, h1]
  · intro d hdd hex
    rw [he]
    refine List.mem_map.mpr ⟨d, ?_, rfl⟩
    rw [List.mem_filter]
    refine ⟨hdd, ?_⟩
    rw [List.any_eq_true]
    rcases hex with ⟨p, hp, hpd⟩
    exact ⟨p, hp, by simp [hpd]⟩
  · intro d hlt
    rw [he]
    apply lookupA_map_of_not_mem
    intro hmem
    rw [List.mem_filter] at hmem
    rcases List.any_eq_true.mp hmem.2 with ⟨p, hp, hpd⟩
    simp only [decide_eq_true_eq] at hpd
    have := hlt p hp
    omega

/-- Witness for C1 on scenario 2 of the spec (buy 100 on day 1, sell 40 on
day 5, dense days 1–6): the hypotheses hold and the series evaluates to 100 on
days 1–4 and 60 from day 5 on. -/
theorem C1_cumulative_quantity_witness :
    (∀ d q, (d, q) ∈ rawQty [1,2,3,4,5,6] [(1,(100:ℚ)),(5,-40)] →
        q = sumLE [(1,(100:ℚ)),(5,-40)] d) ∧
    rawQty [1,2,3,4,5,6] [(1,(100:ℚ)),(5,-40)]
      = [(1,100),(2,100),(3,100),(4,100),(5,60),(6,60)] :=
  ⟨(C1_cumulative_quantity [1,2,3,4,5,6] [(1,(100:ℚ)),(5,-40)]
      (by decide) (by decide) (by decide)).1,
    by norm_num [rawQty, dropna, ffill, cumsumSkipna, alignIdx, unionSorted,
      lookupA, List.filterMap_cons]⟩

/-- C6 (from the spec, since `Trades.by_ticker` is outside the given sources):
the per-instrument trade events are aggregated by date before alignment — the
resulting net-volume series has strictly increasing (hence duplicate-free)
dates, and each date present in the events carries the sum of all signed
volumes recorded on it (nothing lost or overwritten); dates without events are
absent. -/
theorem C6_same_date_aggregation (events : List (Nat × ℚ))
    (h : (events.map Prod.fst).Pairwise (· ≤ ·)) :
    ((by_ticker events).map Prod.fst).Pairwise (· < ·) ∧
    (∀ d, d ∈ events.map Prod.fst →
      lookupA d (by_ticker events) =
        some (((events.filter (fun p => p.1 = d)).map Prod.snd).sum)) ∧
    (∀ d, d ∉ events.map Prod.fst → lookupA d (by_ticker events) = none) := by
  refine ⟨by_ticker_sorted events h, ?_, ?_⟩
  · intro d hdm
    unfold by_ticker
    exact lookupA_map_self _ (List.mem_dedup.mpr hdm)
  · intro d hdm
    unfold by_ticker
    exact lookupA_map_of_not_mem _ (fun hc => hdm (List.mem_dedup.mp hc))

/-- Witness for C6: two buys on day 1 (30 and 70) and a sale on day 3
aggregate to one net row per date, 100 then −40. -/
theorem C6_same_date_aggregation_witness :
    (∀ d, d ∈ ([(1,(30:ℚ)),(1,70),(3,-40)].map Prod.fst) →
      lookupA d (by_ticker [(1,(30:ℚ)),(1,70),(3,-40)]) =
        some ((([(1,(30:ℚ)),(1,70),(3,-40)].filter
          (fun p => p.1 = d)).map Prod.snd).sum)) ∧
    by_ticker [(1,(30:ℚ)),(1,70),(3,-40)] = [(1,100),(3,-40)] :=
  ⟨(C6_same_date_aggregation [(1,(30:ℚ)),(1,70),(3,-40)] (by decide)).2.1,
    by norm_num [by_ticker, List.dedup, List.pwFilter, List.filter]⟩

/-- C8 counterexample: the split series `[(0, 2)]` has no entry with factor
different from 1 *inside the quantity series' date range* (its only entry sits
at date 0, before the series starts at date 1), yet `stocksplits` does not
return the input unchanged — the positive factor anywhere in the action
history triggers the adjustment branch, which ceilings the fractional quantity
7/2 up to 4. -/
theorem C8_counterexample :
    stocksplits [(0, (2:ℚ))] [(1, some (7/2 : ℚ))] ≠ [(1, some (7/2 : ℚ))] := by
  have hc : ((⌈(7/2 : ℚ)⌉ : ℤ) : ℚ) = 4 := by
    have h4 : (⌈(7/2 : ℚ)⌉ : ℤ) = 4 := by
      rw [Int.ceil_eq_iff]
      norm_num
    rw [h4]
    norm_num
  have he : stocksplits [(0, (2:ℚ))] [(1, some (7/2 : ℚ))] = [(1, some 4)] := by
    norm_num [stocksplits, sliceFrom, zeroMask, fvIdx, fillna1, ffill,
      cumprodSkipna, splitFactor, lookupA, ceilSeries, mulAligned, List.filter,
      List.find?, hc]
  rw [he]
  norm_num

/-- C8 amended: split adjustment returns the input unchanged exactly when the
fetched action history contains no entry with *positive* factor (rather than
"no factor ≠ 1 over the series' range"); in particular `adjust(q, {}) = q`. -/
theorem C8_identity_no_positive_split (actions : List (Nat × ℚ))
    (df : List (Nat × Option ℚ))
    (h : actions.any (fun p => decide (0 < p.2)) = false) :
    stocksplits actions df = df := by
  unfold stocksplits
  rw [h]
  simp

/-- Witness for C8: the empty split series leaves a (fractional) series
untouched. -/
theorem C8_identity_no_positive_split_witness :
    stocksplits [] [(5, some (7/2 : ℚ))] = [(5, some (7/2 : ℚ))] :=
  C8_identity_no_positive_split [] [(5, some (7/2 : ℚ))] rfl

/-- C2 counterexample: with a 2-for-1 split on day 1 and the position closed
on day 2 (quantity exactly 0), the claim predicts the adjusted quantity
`ceil(0 × 2) = 0` on day 2, but the code masks zero holdings to `NaN` first,
so the adjusted series is *undefined* on day 2. -/
theorem C2_counterexample :
    lookupA 2 (stocksplits [(1, (2:ℚ))] [(1, some (100:ℚ)), (2, some 0)])
      = some none ∧
    ((⌈(0:ℚ) * (2:ℚ)⌉ : ℤ) : ℚ) = 0 := by
  constructor
  · norm_num [stocksplits, sliceFrom, zeroMask, fvIdx, fillna1, ffill,
      cumprodSkipna, splitFactor, lookupA, ceilSeries, mulAligned, List.filter,
      List.find?, Int.ceil_eq_iff]
  · norm_num

/-- C2 amended: when the action history holds a positive split factor, the
adjusted quantity at each date with a defined *non-zero* quantity equals the
original quantity times the cumulative product of split factors from the first
date the (zero-masked) quantity is defined onward — forward-filled and
defaulted to 1 — rounded up to a whole unit; dates with zero or undefined
quantity come out undefined. -/
theorem C2_split_adjustment (actions : List (Nat × ℚ))
    (df : List (Nat × Option ℚ))
    (hdf : (df.map Prod.fst).Pairwise (· < ·))
    (hpos : actions.any (fun p => decide (0 < p.2)) = true) :
    stocksplits actions df = adjustSpec actions df :=
  stocksplits_spec actions df hdf hpos

/-- Witness for C2 on scenario 3 of the spec (buy 100 day 1, 2-for-1 split on
day 1, second lot on day 3): the spec formula applies and evaluates to
200 then 100×2=… on the concrete series. -/
theorem C2_split_adjustment_witness :
    stocksplits [(1, (2:ℚ))] [(1, some (100:ℚ)), (3, some 50)]
      = adjustSpec [(1, (2:ℚ))] [(1, some (100:ℚ)), (3, some 50)] ∧
    adjustSpec [(1, (2:ℚ))] [(1, some (100:ℚ)), (3, some 50)]
      = [(1, some 200), (3, some 100)] :=
  ⟨C2_split_adjustment [(1, (2:ℚ))] [(1, some (100:ℚ)), (3, some 50)]
      (by decide) (by decide),
    by norm_num [adjustSpec, cumFactorAt, zeroMask, fvIdx, splitFactor, lookupA,
      List.find?, List.filter, List.filterMap_cons, Int.ceil_ofNat]⟩

/-- C10: ceiling rounding is applied iff the fetched action history has at
least one split with positive factor.  With none, quantities pass through
`stocksplits` without any change (a fractional raw quantity stays fractional);
with one, every defined output quantity is the ceiling of the original
quantity times the cumulative split factor — in particular a whole number,
also on dates before the first split where that factor is 1. -/
theorem C10_ceiling_iff_positive_split (actions : List (Nat × ℚ)) :
    (∀ df, actions.any (fun p => decide (0 < p.2)) = false →
      stocksplits actions df = df) ∧
    (∀ df, (df.map Prod.fst).Pairwise (· < ·) →
      actions.any (fun p => decide (0 < p.2)) = true →
      ∀ d q, (d, some q) ∈ stocksplits actions df →
        ∃ v, (d, some v) ∈ df ∧ v ≠ 0 ∧
          q = ((⌈v * cumFactorAt actions df d⌉ : ℤ) : ℚ)) := by
  constructor
  · intro df h
    unfold stocksplits
    rw [h]
    simp
  · intro df hdf hpos d q hq
    rw [stocksplits_spec actions df hdf hpos] at hq
    unfold adjustSpec at hq
    rcases List.mem_map.mp hq with ⟨p, hp, heq⟩
    rcases p with ⟨d', pv⟩
    have h1 := congrArg Prod.fst heq
    have h2 := congrArg Prod.snd heq
    rcases pv with _ | v
    · simp at h2
    · simp only [Prod.fst, Prod.snd] at h1 h2
      by_cases hv : v = 0
      · rw [if_pos hv] at h2
        cases h2
      · rw [if_neg hv] at h2
        have h3 := (Option.some.injEq _ _).mp h2
        subst h1
        exact ⟨v, hp, hv, h3.symm⟩

/-- Witness for C10: the factor-0 (no-split) history leaves the fractional
quantity 7/2 untouched, while the positive-factor history forces every defined
output to be a ceiling value (here 4 = ⌈7/2 × 1⌉). -/
theorem C10_ceiling_iff_positive_split_witness :
    stocksplits [(3, (0:ℚ))] [(1, some (7/2 : ℚ))] = [(1, some (7/2 : ℚ))] ∧
    (∃ v, (1, some v) ∈ [(1, some (7/2 : ℚ))] ∧ v ≠ 0 ∧
      (4:ℚ) = ((⌈v * cumFactorAt [(0, (2:ℚ))] [(1, some (7/2 : ℚ))] 1⌉ : ℤ) : ℚ)) := by
  constructor
  · exact (C10_ceiling_iff_positive_split [(3, (0:ℚ))]).1 [(1, some (7/2 : ℚ))]
      (by decide)
  · have hc : ((⌈(7/2 : ℚ)⌉ : ℤ) : ℚ) = 4 := by
      have h4 : (⌈(7/2 : ℚ)⌉ : ℤ) = 4 := by
        rw [Int.ceil_eq_iff]
        norm_num
      rw [h4]
      norm_num
    have he : stocksplits [(0, (2:ℚ))] [(1, some (7/2 : ℚ))] = [(1, some 4)] := by
      norm_num [stocksplits, sliceFrom, zeroMask, fvIdx, fillna1, ffill,
        cumprodSkipna, splitFactor, lookupA, ceilSeries, mulAligned, List.filter,
        List.find?, hc]
    have hmem : (1, some (4:ℚ)) ∈ stocksplits [(0, (2:ℚ))] [(1, some (7/2 : ℚ))] := by
      rw [he]
      exact List.mem_singleton.mpr rfl
    exact (C10_ceiling_iff_positive_split [(0, (2:ℚ))]).2 [(1, some (7/2 : ℚ))]
      (by decide) (by decide) 1 4 hmem

/-- C5 counterexample: buy 100 on day 1, sell all 100 on day 5, 2-for-1 split
announced on day 7 (dense days 1–10).  The claim says the reported quantity
remains 0 from day 7 onward, but the code masks the zero holding to `NaN`, so
the reported quantity on day 7 is *undefined*, not 0. -/
theorem C5_counterexample :
    lookupA 7 (stocksplits [(7, (2:ℚ))]
      ((rawQty [1,2,3,4,5,6,7,8,9,10] [(1,(100:ℚ)), (5,-100)]).map
        (fun p => (p.1, some p.2)))) = some none ∧
    (some (none : Option ℚ)) ≠ some (some (0:ℚ)) := by
  constructor
  · norm_num [rawQty, dropna, ffill, cumsumSkipna, alignIdx, unionSorted,
      stocksplits, sliceFrom, zeroMask, fvIdx, fillna1, cumprodSkipna,
      splitFactor, lookupA, ceilSeries, mulAligned, List.filter, List.find?,
      List.filterMap_cons, Int.ceil_ofNat]
  · simp

/-- C5 amended: in the buy-100/sell-100/split scenario the quantity is
undefined (masked, not 0 and not positive) from the sell date onward, so the
day-7 split never produces a non-zero post-split balance on day 7 or any later
date: days 1–4 report 100 and days 5–10 report no defined quantity at all. -/
theorem C5_closed_position_masked :
    stocksplits [(7, (2:ℚ))]
      ((rawQty [1,2,3,4,5,6,7,8,9,10] [(1,(100:ℚ)), (5,-100)]).map
        (fun p => (p.1, some p.2)))
      = [(1, some 100), (2, some 100), (3, some 100), (4, some 100),
         (5, none), (6, none), (7, none), (8, none), (9, none), (10, none)] := by
  norm_num [rawQty, dropna, ffill, cumsumSkipna, alignIdx, unionSorted,
    stocksplits, sliceFrom, zeroMask, fvIdx, fillna1, cumprodSkipna,
    splitFactor, lookupA, ceilSeries, mulAligned, List.filter, List.find?,
    List.filterMap_cons, Int.ceil_ofNat]

/-- C3 counterexample: a single buy of 100 on day 1 with an empty price series
for the instrument.  The claim says the date without a known price is dropped
(inner join), but the code's `merge_ordered` is an outer join: the record
survives with an undefined price and undefined value. -/
theorem C3_counterexample :
    buildAll [1] [0] (fun _ => [(1, (100:ℚ))]) (fun _ => some []) (fun _ => [])
      = [{ date := 1, ticker := 0, volume := some 100, close := none,
           value := none }] := by
  norm_num [buildAll, buildTicker, by_ticker, rawQty, dropna, ffill,
    cumsumSkipna, alignIdx, unionSorted, lookupA, stocksplitsChecked,
    stocksplits, mergeClose, optMul, mkRec, List.insertionSort,
    List.orderedInsert, recLE, List.dedup, List.filter, List.filterMap_cons,
    Function.comp]

/-- C3 amended: the merge of the adjusted quantity series with the price
series is an *outer* join on date: every quantity-date survives, paired with
exactly the provider's price entry at that same date (`NaN` when the provider
has none — prices are never forward-filled, and the record is not dropped). -/
theorem C3_merge_is_outer_join (adj close : List (Nat × Option ℚ))
    (hn : (adj.map Prod.fst).Nodup) :
    ∀ d v, (d, v) ∈ adj →
      (d, (v, (lookupA d close).getD none)) ∈ mergeClose adj close :=
  fun _ _ h => mem_mergeClose_left hn h

/-- Witness for C3: the quantity-date 1, which has no price, is retained in
the merged output with an undefined price. -/
theorem C3_merge_is_outer_join_witness :
    (1, (some (100:ℚ), (none : Option ℚ))) ∈ mergeClose [(1, some (100:ℚ))] [] ∧
    mergeClose [(1, some (100:ℚ))] [] = [(1, (some 100, none))] :=
  ⟨C3_merge_is_outer_join [(1, some (100:ℚ))] [] (by decide) 1 (some 100)
      (List.mem_singleton.mpr rfl),
    by norm_num [mergeClose, unionSorted, lookupA]⟩

/-- C4 counterexample: instrument first traded on day 3, while the provider
has prices from day 1.  The claim says no record exists before the first trade
date, but the outer merge with the price series reintroduces days 1 and 2 as
records (with undefined quantity and value). -/
theorem C4_counterexample :
    buildAll [1,2,3] [0] (fun _ => [(3, (100:ℚ))]) (fun _ => some [])
      (fun _ => [(1, some (10:ℚ)), (2, some 10), (3, some 10)])
      = [{ date := 1, ticker := 0, volume := none, close := some 10,
           value := none },
         { date := 2, ticker := 0, volume := none, close := some 10,
           value := none },
         { date := 3, ticker := 0, volume := some 100, close := some 10,
           value := some 1000 }] := by
  norm_num [buildAll, buildTicker, by_ticker, rawQty, dropna, ffill,
    cumsumSkipna, alignIdx, unionSorted, lookupA, stocksplitsChecked,
    stocksplits, mergeClose, optMul, mkRec, List.insertionSort,
    List.orderedInsert, recLE, List.dedup, List.filter, List.filterMap_cons,
    Function.comp]

/-- C4 amended: the quantity *series* is defined only from the first trade
onward — every record of the final table whose quantity is defined has a trade
of its instrument dated at or before the record's date.  (Records dated before
the first trade can exist when the price series has entries there, but they
carry an undefined quantity and an undefined value.) -/
theorem C4_quantity_defined_from_first_trade
    (dense : List Nat) (tickers : List Nat) (events : Nat → List (Nat × ℚ))
    (fetch : Nat → Option (List (Nat × ℚ))) (close : Nat → List (Nat × Option ℚ))
    (hd : dense.Pairwise (· < ·))
    (he : ∀ t, ((events t).map Prod.fst).Pairwise (· ≤ ·))
    (hsub : ∀ t, ∀ p ∈ events t, p.1 ∈ dense) :
    ∀ rec ∈ buildAll dense tickers events fetch close, ∀ v : ℚ,
      rec.volume = some v → ∃ p ∈ events rec.ticker, p.1 ≤ rec.date := by
  intro rec hrec v hv
  rcases mem_buildAll.mp hrec with ⟨t, ht, row, hrow, rfl⟩
  have hvt : ((by_ticker (events t)).map Prod.fst).Pairwise (· < ·) :=
    by_ticker_sorted _ (he t)
  have hsubt : ∀ p ∈ by_ticker (events t), p.1 ∈ dense := by
    intro p hp
    have hk : p.1 ∈ (by_ticker (events t)).map Prod.fst :=
      List.mem_map.mpr ⟨p, hp, rfl⟩
    rw [by_ticker_fst] at hk
    rcases List.mem_map.mp (List.mem_dedup.mp hk) with ⟨ev, hev, hevd⟩
    exact hevd ▸ hsub t ev hev
  unfold buildTicker at hrow
  rcases List.mem_map.mp hrow with ⟨d, hdm, heqrow⟩
  have hvol : (mkRec t row).volume
      = (lookupA d ((stocksplitsChecked (fetch t)
          ((rawQty dense (by_ticker (events t))).map
            (fun p => (p.1, some p.2)))).1)).getD none := by
    rw [← heqrow]
    rfl
  rw [hvol] at hv
  have hlk : lookupA d ((stocksplitsChecked (fetch t)
      ((rawQty dense (by_ticker (events t))).map
        (fun p => (p.1, some p.2)))).1) = some (some v) := by
    rcases hl : lookupA d ((stocksplitsChecked (fetch t)
        ((rawQty dense (by_ticker (events t))).map
          (fun p => (p.1, some p.2)))).1) with _ | x
    · rw [hl] at hv
      cases hv
    · rw [hl] at hv
      exact hl.trans (congrArg some hv)
  have hadj := lookupA_mem hlk
  have hmqf : (((rawQty dense (by_ticker (events t))).map
      (fun p => (p.1, some p.2))).map Prod.fst).Pairwise (· < ·) := by
    rw [List.map_map]
    rw [show (Prod.fst ∘ fun p : Nat × ℚ => (p.1, some p.2)) = Prod.fst from rfl]
    rw [rawQty_fst dense (by_ticker (events t)) hd hvt hsubt]
    exact hd.filter _
  rcases adj_defined_sub (fetch t) _ hmqf d v hadj with ⟨w, hw⟩
  rcases List.mem_map.mp hw with ⟨r, hr, heqr⟩
  have hrd : r.1 = d := congrArg Prod.fst heqr
  have hmem2 : (d, r.2) ∈ rawQty dense (by_ticker (events t)) := by
    rw [← hrd]
    exact hr
  rw [rawQty_eq dense (by_ticker (events t)) hd hvt hsubt] at hmem2
  rcases List.mem_map.mp hmem2 with ⟨d', hd', heqd⟩
  have hdd : d' = d := congrArg Prod.fst heqd
  rw [hdd] at hd'
  rcases List.any_eq_true.mp (List.mem_filter.mp hd').2 with ⟨pv, hpv, hple⟩
  simp only [decide_eq_true_eq] at hple
  have hk : pv.1 ∈ (by_ticker (events t)).map Prod.fst :=
    List.mem_map.mpr ⟨pv, hpv, rfl⟩
  rw [by_ticker_fst] at hk
  rcases List.mem_map.mp (List.mem_dedup.mp hk) with ⟨ev, hev, hevd⟩
  refine ⟨ev, hev, ?_⟩
  have hdate : (mkRec t row).date = d := by
    rw [← heqrow]
    rfl
  rw [hdate, hevd]
  exact hple

/-- Witness for C4: the day-3 record with defined quantity indeed has a trade
dated at most day 3. -/
theorem C4_quantity_defined_from_first_trade_witness :
    ({ date := 3, ticker := 0, volume := some 100, close := some 10,
       value := some 1000 } : HoldingRecord) ∈ buildAll [1,2,3] [0]
      (fun _ => [(3, (100:ℚ))]) (fun _ => some [])
      (fun _ => [(1, some (10:ℚ)), (2, some 10), (3, some 10)]) ∧
    (∃ p ∈ [(3, (100:ℚ))], p.1 ≤ 3) := by
  have hb : buildAll [1,2,3] [0] (fun _ => [(3, (100:ℚ))]) (fun _ => some [])
      (fun _ => [(1, some (10:ℚ)), (2, some 10), (3, some 10)])
      = [{ date := 1, ticker := 0, volume := none, close := some 10,
           value := none },
         { date := 2, ticker := 0, volume := none, close := some 10,
           value := none },
         { date := 3, ticker := 0, volume := some 100, close := some 10,
           value := some 1000 }] := by
    norm_num [buildAll, buildTicker, by_ticker, rawQty, dropna, ffill,
      cumsumSkipna, alignIdx, unionSorted, lookupA, stocksplitsChecked,
      stocksplits, mergeClose, optMul, mkRec, List.insertionSort,
      List.orderedInsert, recLE, List.dedup, List.filter, List.filterMap_cons,
      Function.comp]
  have hmem :
      ({ date := 3, ticker := 0, volume := some 100, close := some 10,
         value := some 1000 } : HoldingRecord) ∈ buildAll [1,2,3] [0]
        (fun _ => [(3, (100:ℚ))]) (fun _ => some [])
        (fun _ => [(1, some (10:ℚ)), (2, some 10), (3, some 10)]) := by
    rw [hb]
    simp
  exact ⟨hmem, C4_quantity_defined_from_first_trade [1,2,3] [0]
    (fun _ => [(3, (100:ℚ))]) (fun _ => some [])
    (fun _ => [(1, some (10:ℚ)), (2, some 10), (3, some 10)])
    (by decide)
    (by
      intro t
      show ([(3, (100:ℚ))].map Prod.fst).Pairwise (· ≤ ·)
      decide)
    (by
      intro t
      show ∀ p ∈ [(3, (100:ℚ))], p.1 ∈ [1, 2, 3]
      decide) _ hmem 100 rfl⟩

/-- C9: for every record of the final portfolio table, the value equals
quantity times price under `NaN` propagation, and the value is defined iff
both the quantity and the price are defined; when both are defined the value
is exactly their product. -/
theorem C9_value_product (dense : List Nat) (tickers : List Nat)
    (events : Nat → List (Nat × ℚ)) (fetch : Nat → Option (List (Nat × ℚ)))
    (close : Nat → List (Nat × Option ℚ)) :
    ∀ rec ∈ buildAll dense tickers events fetch close,
      rec.value = optMul rec.volume rec.close ∧
      (rec.value.isSome = true ↔
        (rec.volume.isSome = true ∧ rec.close.isSome = true)) ∧
      (∀ v c : ℚ, rec.volume = some v → rec.close = some c →
        rec.value = some (v * c)) := by
  intro rec hrec
  rcases mem_buildAll.mp hrec with ⟨t, ht, row, hrow, rfl⟩
  rcases row with ⟨d, pv, pc⟩
  refine ⟨rfl, ?_, ?_⟩
  · rcases pv with _ | v <;> rcases pc with _ | c <;> simp [mkRec, optMul]
  · intro v c hv hc
    simp only [mkRec] at hv hc ⊢
    rw [hv, hc] at *
    simp [optMul, hv, hc]

/-- Witness for C9 on scenario 1 of the spec: buy 100 at day 1, price 12 —
the surviving record's value is 100 × 12 = 1200. -/
theorem C9_value_product_witness :
    ({ date := 1, ticker := 0, volume := some 100, close := some 12,
       value := some 1200 } : HoldingRecord) ∈ buildAll [1] [0]
      (fun _ => [(1, (100:ℚ))]) (fun _ => some [])
      (fun _ => [(1, some (12:ℚ))]) ∧
    ({ date := 1, ticker := 0, volume := some 100, close := some 12,
       value := some 1200 } : HoldingRecord).value
      = optMul (some 100) (some 12) := by
  have hb : buildAll [1] [0] (fun _ => [(1, (100:ℚ))]) (fun _ => some [])
      (fun _ => [(1, some (12:ℚ))])
      = [{ date := 1, ticker := 0, volume := some 100, close := some 12,
           value := some 1200 }] := by
    norm_num [buildAll, buildTicker, by_ticker, rawQty, dropna, ffill,
      cumsumSkipna, alignIdx, unionSorted, lookupA, stocksplitsChecked,
      stocksplits, mergeClose, optMul, mkRec, List.insertionSort,
      List.orderedInsert, recLE, List.dedup, List.filter, List.filterMap_cons,
      Function.comp]
  have hmem :
      ({ date := 1, ticker := 0, volume := some 100, close := some 12,
         value := some 1200 } : HoldingRecord) ∈ buildAll [1] [0]
        (fun _ => [(1, (100:ℚ))]) (fun _ => some [])
        (fun _ => [(1, some (12:ℚ))]) := by
    rw [hb]
    simp
  exact ⟨hmem, (C9_value_product [1] [0] (fun _ => [(1, (100:ℚ))])
    (fun _ => some []) (fun _ => [(1, some (12:ℚ))]) _ hmem).1⟩

/-- C7: when the corporate-actions fetch fails for an instrument, the
adjuster returns the quantity series unmodified and raises the warning flag
(the printed message); the failing instrument is still priced from the
unadjusted series, and every listed instrument's rows — failing or not —
reach the final portfolio table (the reconstruction is not aborted). -/
theorem C7_fail_soft (dense : List Nat) (tickers : List Nat)
    (events : Nat → List (Nat × ℚ)) (fetch : Nat → Option (List (Nat × ℚ)))
    (close : Nat → List (Nat × Option ℚ)) :
    (∀ df, stocksplitsChecked none df = (df, true)) ∧
    (∀ t, fetch t = none →
      buildTicker dense (by_ticker (events t)) (fetch t) (close t)
        = mergeClose ((rawQty dense (by_ticker (events t))).map
            (fun p => (p.1, some p.2))) (close t)) ∧
    (∀ t ∈ tickers, ∀ row ∈ buildTicker dense (by_ticker (events t)) (fetch t)
        (close t), mkRec t row ∈ buildAll dense tickers events fetch close) := by
  refine ⟨fun df => rfl, ?_, ?_⟩
  · intro t h
    rw [h]
    rfl
  · intro t ht row hrow
    exact mem_buildAll.mpr ⟨t, ht, row, hrow, rfl⟩

/-- Witness for C7: with a failing fetch, the series passes through with the
warning flag set, and the instrument's row still reaches the final table. -/
theorem C7_fail_soft_witness :
    stocksplitsChecked none [(1, some (100:ℚ))] = ([(1, some (100:ℚ))], true) ∧
    mkRec 0 (1, some (100:ℚ), none) ∈ buildAll [1] [0]
      (fun _ => [(1, (100:ℚ))]) (fun _ => none) (fun _ => []) := by
  constructor
  · exact (C7_fail_soft [1] [0] (fun _ => [(1, (100:ℚ))]) (fun _ => none)
      (fun _ => [])).1 [(1, some (100:ℚ))]
  · refine (C7_fail_soft [1] [0] (fun _ => [(1, (100:ℚ))]) (fun _ => none)
      (fun _ => [])).2.2 0 (by decide) (1, some (100:ℚ), none) ?_
    have hb : buildTicker [1] (by_ticker [(1, (100:ℚ))]) none []
        = [(1, some (100:ℚ), none)] := by
      norm_num [buildTicker, by_ticker, rawQty, dropna, ffill, cumsumSkipna,
        alignIdx, unionSorted, lookupA, stocksplitsChecked, mergeClose,
        List.dedup, List.filter, List.filterMap_cons, Function.comp]
    rw [hb]
    simp

end JinFund
